import Mathlib

/-!
Verification of the netlist fan-in-cone engine of `kernel/algo.h`:
driver-index construction (`Netlist::setup_netlist`) and the lazy
bit-cone / cell-cone traversals (`NetlistConeWireIter`,
`NetlistConeCellIter`, `cone`, `cell_cone`).

Modelling conventions (shallow embedding):
* `RTLIL::SigBit` and `RTLIL::Cell*` are modelled as natural numbers.
* `dict` maps are association lists; a fresh binding is prepended and
  lookup returns the first match, which gives the dict's
  overwrite-on-repeated-key behaviour (last write wins).
* `std::set<SigBit>` is a sorted duplicate-free list (the set's
  iteration order); `std::set<Cell*>::count` is list membership.
* The C++ iterators are modelled as an explicit state machine: a state
  (`sig`, `dfs_path_stack`, `cells_visited`) plus a step function
  `wireStep` that mirrors `NetlistConeWireIter::operator++`.  A full
  range-for consumption of the iterator is realised with a fuel-indexed
  driver `coneFromFuel` (one fuel unit per `operator++`); the top-level
  entry points supply a fuel bound proven sufficient, so running out of
  fuel is impossible for them.
* Undefined behaviour in the source (dereferencing the end iterator of
  an empty input set) and a throwing `dict::at` on a missing key are
  both modelled as the abnormal result `.ub` / `.abnormal`.
-/

abbrev SigBit := Nat

abbrev Cell := Nat

/-- First-match lookup in an association list (the `dict` lookup). -/
def lookupAL {β : Type} (k : Nat) : List (Nat × β) → Option β
  | [] => none
  | (k', v) :: rest => if k = k' then some v else lookupAL k rest

/-- The driver index built by `Netlist::setup_netlist`.
`sigbit_driver_map` and `cell_inputs_map` are association lists with
first-match lookup; fresh bindings are prepended, so a later binding for
the same key shadows an earlier one exactly like `dict` overwriting. -/
structure Netlist where
  sigbit_driver_map : List (SigBit × Cell)
  cell_inputs_map : List (Cell × List SigBit)
  sigmap : SigBit → SigBit

/-- `net.sigbit_driver_map.count(b) / .at(b)` combined: the driver of a
canonical bit, if any. -/
def Netlist.driverOf (net : Netlist) (b : SigBit) : Option Cell :=
  lookupAL b net.sigbit_driver_map

/-- The recorded canonical input-bit set of a cell (`cell_inputs_map`),
defaulting to the empty set for absent cells. -/
def Netlist.inputsOf (net : Netlist) (c : Cell) : List SigBit :=
  (lookupAL c net.cell_inputs_map).getD []

/- ------------------------------------------------------------------
Index construction: `Netlist::setup_netlist`.
------------------------------------------------------------------- -/

/-- One named port connection of a cell, already expanded to its bit
vector (`port.second.to_sigbit_vector()`), before canonicalization. -/
structure PortConn where
  pname : Nat
  bits : List SigBit

/-- A raw module cell as enumerated by `module->cells()`. -/
structure RawCell where
  id : Cell
  ctype : Nat
  conns : List PortConn

/-- The classification oracle (`CellTypes`). -/
structure CellTypes where
  cell_known : Nat → Bool
  cell_output : Nat → Nat → Bool

/-- Insertion into a sorted duplicate-free list: `std::set::insert`. -/
def setInsert (x : Nat) : List Nat → List Nat
  | [] => [x]
  | y :: ys =>
    if x < y then x :: y :: ys
    else if x = y then y :: ys
    else y :: setInsert x ys

/-- `s.insert(bits.begin(), bits.end())`. -/
def setInsertMany (s : List Nat) (xs : List Nat) : List Nat :=
  xs.foldl (fun a b => setInsert b a) s

/-- Partitioning a cell's port connections into the canonical input and
output bit sets (the loop body of `setup_netlist` over
`cell->connections()`); returns `(inputs, outputs)`.  The C++ inserts
into `std::set`s while walking the connections in order; since the
resulting sorted duplicate-free set is independent of insertion order,
the recursion direction here does not change the result. -/
def portSets (sm : SigBit → SigBit) (ct : CellTypes) (t : Nat) :
    List PortConn → List SigBit × List SigBit
  | [] => ([], [])
  | p :: ps =>
    let rest := portSets sm ct t ps
    if ct.cell_output t p.pname then
      (rest.1, setInsertMany rest.2 (p.bits.map sm))
    else
      (setInsertMany rest.1 (p.bits.map sm), rest.2)

/-- `Netlist::setup_netlist`: for every classified cell, record its
canonical input-bit set and register it as driver of each of its
canonical output bits (later cells overwrite earlier drivers). -/
def setup_netlist (sm : SigBit → SigBit) (ct : CellTypes)
    (cells : List RawCell) : Netlist :=
  cells.foldl
    (fun net cell =>
      if ct.cell_known cell.ctype then
        let io := portSets sm ct cell.ctype cell.conns
        { net with
          cell_inputs_map := (cell.id, io.1) :: net.cell_inputs_map
          sigbit_driver_map :=
            io.2.map (fun b => (b, cell.id)) ++ net.sigbit_driver_map }
      else net)
    { sigbit_driver_map := [], cell_inputs_map := [], sigmap := sm }

/- ------------------------------------------------------------------
The bit-cone iterator `NetlistConeWireIter`.
------------------------------------------------------------------- -/

/-- The mutable state of `NetlistConeWireIter`.  A stack frame holds the
elements of one cell's input set that the cursor has not yet produced
(the cursor element itself has already been produced). -/
structure NetlistConeWireIter where
  sig : SigBit
  dfs_path_stack : List (List SigBit)
  cells_visited : List Cell
deriving DecidableEq, Repr

/-- `NetlistConeWireIter::next_sig_in_dag`: advance the cursor of the
topmost frame, popping exhausted frames; `none` means the stack ran out
(the iterator becomes the sentinel). -/
def nextSigInDag : List (List SigBit) → Option (SigBit × List (List SigBit))
  | [] => none
  | [] :: rest => nextSigInDag rest
  | (x :: xs) :: rest => some (x, xs :: rest)

/-- Result of one `operator++` on the bit iterator.  `.ub` is the
undefined behaviour of dereferencing `inputs.begin()` when the freshly
pushed input set is empty (and also a throwing `.at` on a cell missing
from `cell_inputs_map`); `.fin` carries the final `cells_visited`. -/
inductive WireStepRes where
  | ub : WireStepRes
  | fin : List Cell → WireStepRes
  | cont : NetlistConeWireIter → WireStepRes
deriving DecidableEq, Repr

/-- `NetlistConeWireIter::operator++`. -/
def wireStep (net : Netlist) (st : NetlistConeWireIter) : WireStepRes :=
  match net.driverOf st.sig with
  | some drv =>
    if drv ∈ st.cells_visited then
      match nextSigInDag st.dfs_path_stack with
      | none => .fin st.cells_visited
      | some (x, stk) => .cont ⟨x, stk, st.cells_visited⟩
    else
      match lookupAL drv net.cell_inputs_map with
      | none => .ub
      | some [] => .ub
      | some (x :: xs) =>
        .cont ⟨x, xs :: st.dfs_path_stack, drv :: st.cells_visited⟩
  | none =>
    match nextSigInDag st.dfs_path_stack with
    | none => .fin st.cells_visited
    | some (x, stk) => .cont ⟨x, stk, st.cells_visited⟩

/- ------------------------------------------------------------------
Termination measure.
------------------------------------------------------------------- -/

/-- Weight of the DFS stack: one per frame plus one per pending bit. -/
def stackMeasure : List (List SigBit) → Nat
  | [] => 0
  | f :: r => f.length + 1 + stackMeasure r

/-- The cells that can ever be pushed: values of the driver map. -/
def Netlist.cellSet (net : Netlist) : Finset Cell :=
  (net.sigbit_driver_map.map Prod.snd).toFinset

/-- Budget one unvisited cell contributes to the measure. -/
def Netlist.inputWeight (net : Netlist) (c : Cell) : Nat :=
  (net.inputsOf c).length + 2

/-- Strictly decreasing measure for `operator++`. -/
def iterMeasure (net : Netlist) (st : NetlistConeWireIter) : Nat :=
  stackMeasure st.dfs_path_stack +
    ∑ c ∈ net.cellSet \ st.cells_visited.toFinset, net.inputWeight c

/- ------------------------------------------------------------------
Consuming the bit iterator: fuel-indexed range-for.
------------------------------------------------------------------- -/

/-- Result of consuming the whole bit range: the yielded bits in order
together with the final `cells_visited` (or abnormal termination). -/
inductive FuelRes where
  | timeout : FuelRes
  | ub : FuelRes
  | ok : List SigBit → List Cell → FuelRes
deriving DecidableEq, Repr

/-- Range-for over the bit iterator: yield `*it`, run `++it`, repeat
until the sentinel; one fuel unit per `operator++`. -/
def coneFromFuel (net : Netlist) : Nat → NetlistConeWireIter → FuelRes
  | 0, _ => .timeout
  | n + 1, st =>
    match wireStep net st with
    | .ub => .ub
    | .fin vis => .ok [st.sig] vis
    | .cont st' =>
      match coneFromFuel net n st' with
      | .timeout => .timeout
      | .ub => .ub
      | .ok l vis => .ok (st.sig :: l) vis

/-- `cone(net, sig).begin()`: the iterator starts (non-sentinel) at the
canonicalized bit with empty stack and empty visited set. -/
def coneBegin (net : Netlist) (b : SigBit) : NetlistConeWireIter :=
  ⟨net.sigmap b, [], []⟩

/-- Full consumption of `cone(net, b)` with a sufficient fuel bound. -/
def coneRun (net : Netlist) (b : SigBit) : FuelRes :=
  coneFromFuel net (iterMeasure net (coneBegin net b) + 1) (coneBegin net b)

/-- The bit sequence of `cone(net, b)` (absent on abnormal runs). -/
def coneList (net : Netlist) (b : SigBit) : Option (List SigBit) :=
  match coneRun net b with
  | .ok l _ => some l
  | _ => none

example : coneList ⟨[], [], id⟩ 5 = some [5] := by decide

example :
    coneRun ⟨[(0, 0), (1, 1)], [(0, [1]), (1, [0])], id⟩ 0 =
      .ok [0, 1, 0] [1, 0] := by decide

/- ------------------------------------------------------------------
The cell-cone iterator `NetlistConeCellIter`.
------------------------------------------------------------------- -/

/-- Result of `NetlistConeCellIter::operator++`: stop at a state whose
current bit has an unvisited driver, or hit the sentinel. -/
inductive CellStepRes where
  | timeout : CellStepRes
  | ub : CellStepRes
  | finished : CellStepRes
  | stopped : NetlistConeWireIter → CellStepRes
deriving DecidableEq, Repr

/-- `NetlistConeCellIter::operator++`: advance the inner bit iterator,
skipping bits without a driver and bits whose driver cell is already in
the inner iterator's `cells_visited`. -/
def cellNextFuel (net : Netlist) : Nat → NetlistConeWireIter → CellStepRes
  | 0, _ => .timeout
  | n + 1, st =>
    match wireStep net st with
    | .ub => .ub
    | .fin _ => .finished
    | .cont st' =>
      match net.driverOf st'.sig with
      | some c =>
        if c ∈ st'.cells_visited then cellNextFuel net n st'
        else .stopped st'
      | none => cellNextFuel net n st'

/-- Result of consuming the whole cell range. `.abnormal` covers both
inner undefined behaviour and a throwing `dict::at` in `operator*`. -/
inductive CellsRes where
  | timeout : CellsRes
  | abnormal : CellsRes
  | ok : List Cell → CellsRes
deriving DecidableEq, Repr

/-- Range-for over the cell iterator from a yield position: dereference
(`driver_of.at(*sig_iter)`), advance with `operator++`, repeat. -/
def cellConeFuel (net : Netlist) : Nat → NetlistConeWireIter → CellsRes
  | 0, _ => .timeout
  | n + 1, st =>
    match net.driverOf st.sig with
    | none => .abnormal
    | some c =>
      match cellNextFuel net (n + 1) st with
      | .timeout => .timeout
      | .ub => .abnormal
      | .finished => .ok [c]
      | .stopped st' =>
        match cellConeFuel net n st' with
        | .timeout => .timeout
        | .abnormal => .abnormal
        | .ok l => .ok (c :: l)

/-- `cell_cone(net, b)` consumed with fuel budget `F`: the constructor
starts the inner iterator at the canonical bit and, if that bit has no
driver cell, immediately advances (`NetlistConeCellIter`'s
constructor). -/
def cellConeRunWith (net : Netlist) (F : Nat) (b : SigBit) : CellsRes :=
  let st0 := coneBegin net b
  match net.driverOf st0.sig with
  | some _ => cellConeFuel net F st0
  | none =>
    match cellNextFuel net F st0 with
    | .timeout => .timeout
    | .ub => .abnormal
    | .finished => .ok []
    | .stopped st' => cellConeFuel net F st'

/-- Full consumption of `cell_cone(net, b)` with a sufficient bound. -/
def cellConeRun (net : Netlist) (b : SigBit) : CellsRes :=
  cellConeRunWith net (iterMeasure net (coneBegin net b) + 1) b

/-- The cell sequence of `cell_cone(net, b)` (absent on abnormal runs). -/
def cellConeList (net : Netlist) (b : SigBit) : Option (List Cell) :=
  match cellConeRun net b with
  | .ok l => some l
  | _ => none

example :
    cellConeList ⟨[(0, 0), (1, 1)], [(0, [1]), (1, [0])], id⟩ 0 =
      some [0, 1] := by decide

example : cellConeList ⟨[], [], id⟩ 5 = some [] := by decide

/- ------------------------------------------------------------------
Specification-side notions used to state the claims.
------------------------------------------------------------------- -/

/-- Keep the first occurrence of each element not already in `seen`
(first-discovery deduplication). -/
def firstDedup (seen : List Cell) : List Cell → List Cell
  | [] => []
  | x :: xs =>
    if x ∈ seen then firstDedup seen xs
    else x :: firstDedup (x :: seen) xs

/-- The classified cells in the transitive combinational fan-in of the
canonical bit `s`, as recorded by the driver index: the driver of `s`,
and the driver of any recorded input bit of a fan-in cell. -/
inductive ConeCell (net : Netlist) (s : SigBit) : Cell → Prop where
  | start : ∀ c, net.driverOf s = some c → ConeCell net s c
  | step : ∀ c' x c, ConeCell net s c' → x ∈ net.inputsOf c' →
      net.driverOf x = some c → ConeCell net s c

/-- The visited list is closed under discovery order: each cell (listed
newest first) is the driver of `s` or of an input bit of a cell visited
earlier. -/
def ClosedVis (net : Netlist) (s : SigBit) : List Cell → Prop
  | [] => True
  | c :: older =>
    (net.driverOf s = some c ∨
      ∃ c' ∈ older, ∃ x ∈ net.inputsOf c', net.driverOf x = some c) ∧
    ClosedVis net s older

/-- Reachability invariant of the traversal state: the current bit and
every pending stack bit come from `s` or from a visited cell's input
set, and the visited list is discovery-closed. -/
def WireInv (net : Netlist) (s : SigBit) (st : NetlistConeWireIter) : Prop :=
  (st.sig = s ∨ ∃ c ∈ st.cells_visited, st.sig ∈ net.inputsOf c) ∧
  (∀ f ∈ st.dfs_path_stack, ∀ x ∈ f, ∃ c ∈ st.cells_visited, x ∈ net.inputsOf c) ∧
  ClosedVis net s st.cells_visited

/- ------------------------------------------------------------------
Basic lemmas: association lists, `nextSigInDag`, the measure.
------------------------------------------------------------------- -/

theorem lookupAL_mem_snd {β : Type} (k : Nat) (l : List (Nat × β)) (v : β)
    (h : lookupAL k l = some v) : v ∈ l.map Prod.snd := by
  induction l with
  | nil => simp [lookupAL] at h
  | cons p rest ih =>
    obtain ⟨k', v'⟩ := p
    simp only [lookupAL] at h
    by_cases hk : k = k'
    · simp only [if_pos hk, Option.some.injEq] at h
      simp [h]
    · simp only [if_neg hk] at h
      simp [ih h]

theorem nextSigInDag_measure : ∀ (stk : List (List SigBit)) (x : SigBit)
    (stk' : List (List SigBit)), nextSigInDag stk = some (x, stk') →
    stackMeasure stk' < stackMeasure stk := by
  intro stk
  induction stk with
  | nil => intro x stk' h; simp [nextSigInDag] at h
  | cons f rest ih =>
    intro x stk' h
    cases f with
    | nil =>
      simp only [nextSigInDag] at h
      have := ih x stk' h
      simp only [stackMeasure, List.length_nil]
      omega
    | cons y ys =>
      simp only [nextSigInDag, Option.some.injEq, Prod.mk.injEq] at h
      obtain ⟨hx, hstk⟩ := h
      subst hx; subst hstk
      simp only [stackMeasure, List.length_cons]
      omega

theorem nextSigInDag_none : ∀ (stk : List (List SigBit)),
    nextSigInDag stk = none → ∀ f ∈ stk, f = [] := by
  intro stk
  induction stk with
  | nil => intro _ f hf; simp at hf
  | cons f rest ih =>
    intro h g hg
    cases f with
    | nil =>
      simp only [nextSigInDag] at h
      rcases List.mem_cons.mp hg with hg | hg
      · exact hg
      · exact ih h g hg
    | cons y ys => simp [nextSigInDag] at h

theorem nextSigInDag_some_sub : ∀ (stk : List (List SigBit)) (x : SigBit)
    (stk' : List (List SigBit)), nextSigInDag stk = some (x, stk') →
    ∀ y, (∃ f ∈ stk, y ∈ f) → y = x ∨ ∃ f ∈ stk', y ∈ f := by
  intro stk
  induction stk with
  | nil => intro x stk' h; simp [nextSigInDag] at h
  | cons f rest ih =>
    intro x stk' h y hy
    cases f with
    | nil =>
      simp only [nextSigInDag] at h
      obtain ⟨g, hg, hyg⟩ := hy
      rcases List.mem_cons.mp hg with hgf | hgr
      · subst hgf; simp at hyg
      · exact ih x stk' h y ⟨g, hgr, hyg⟩
    | cons z zs =>
      simp only [nextSigInDag] at h
      injection h with h1
      injection h1 with h2 h3
      subst h2; subst h3
      obtain ⟨g, hg, hyg⟩ := hy
      rcases List.mem_cons.mp hg with hgf | hgr
      · subst hgf
        rcases List.mem_cons.mp hyg with hyz | hyzs
        · exact Or.inl hyz
        · exact Or.inr ⟨zs, List.mem_cons_self _ _, hyzs⟩
      · exact Or.inr ⟨g, List.mem_cons_of_mem _ hgr, hyg⟩

theorem nextSigInDag_some_sup : ∀ (stk : List (List SigBit)) (x : SigBit)
    (stk' : List (List SigBit)), nextSigInDag stk = some (x, stk') →
    ∀ y, (y = x ∨ ∃ f ∈ stk', y ∈ f) → ∃ f ∈ stk, y ∈ f := by
  intro stk
  induction stk with
  | nil => intro x stk' h; simp [nextSigInDag] at h
  | cons f rest ih =>
    intro x stk' h y hy
    cases f with
    | nil =>
      simp only [nextSigInDag] at h
      obtain ⟨g, hg, hyg⟩ := ih x stk' h y hy
      exact ⟨g, List.mem_cons_of_mem _ hg, hyg⟩
    | cons z zs =>
      simp only [nextSigInDag] at h
      injection h with h1
      injection h1 with h2 h3
      subst h2; subst h3
      rcases hy with hy | ⟨g, hg, hyg⟩
      · exact ⟨z :: zs, List.mem_cons_self _ _, by simp [hy]⟩
      · rcases List.mem_cons.mp hg with hgf | hgr
        · exact ⟨z :: zs, List.mem_cons_self _ _,
            List.mem_cons_of_mem _ (hgf ▸ hyg)⟩
        · exact ⟨g, List.mem_cons_of_mem _ hgr, hyg⟩

theorem wireStep_measure (net : Netlist) (st st' : NetlistConeWireIter)
    (h : wireStep net st = .cont st') :
    iterMeasure net st' < iterMeasure net st := by
  unfold wireStep at h
  split at h
  · -- driver present
    rename_i drv hdrv
    split at h
    · -- driver already visited: advance in the DAG
      rename_i hvis
      split at h
      · exact absurd h (by simp)
      · rename_i x stk hnx
        injection h with h'
        subst h'
        have := nextSigInDag_measure _ _ _ hnx
        simp only [iterMeasure]
        omega
    · -- fresh driver: push its input frame
      rename_i hvis
      split at h
      · exact absurd h (by simp)
      · exact absurd h (by simp)
      · rename_i x xs hin
        injection h with h'
        subst h'
        have hdS : drv ∈ net.cellSet \ st.cells_visited.toFinset := by
          refine Finset.mem_sdiff.mpr ⟨?_, ?_⟩
          · exact List.mem_toFinset.mpr (lookupAL_mem_snd _ _ _ hdrv)
          · simpa [List.mem_toFinset] using hvis
        have hsum :
            (∑ c ∈ (net.cellSet \ st.cells_visited.toFinset).erase drv,
              net.inputWeight c) + net.inputWeight drv =
            ∑ c ∈ net.cellSet \ st.cells_visited.toFinset,
              net.inputWeight c :=
          Finset.sum_erase_add
            (net.cellSet \ st.cells_visited.toFinset) net.inputWeight hdS
        have hS' : net.cellSet \ ((drv :: st.cells_visited).toFinset) =
            (net.cellSet \ st.cells_visited.toFinset).erase drv := by
          ext y
          simp only [Finset.mem_sdiff, Finset.mem_erase, List.toFinset_cons,
            Finset.mem_insert, List.mem_toFinset]
          tauto
        have hw : net.inputWeight drv = xs.length + 3 := by
          simp [Netlist.inputWeight, Netlist.inputsOf, hin]
        simp only [iterMeasure, stackMeasure, hS']
        omega
  · -- no driver: advance in the DAG
    rename_i hdrv
    split at h
    · exact absurd h (by simp)
    · rename_i x stk hnx
      injection h with h'
      subst h'
      have := nextSigInDag_measure _ _ _ hnx
      simp only [iterMeasure]
      omega

/-- Case analysis of a continuing `operator++`: either the DAG cursor
advanced (no fresh driver), or a fresh driver's input frame was pushed. -/
theorem wireStep_cont_cases (net : Netlist) (st st' : NetlistConeWireIter)
    (h : wireStep net st = .cont st') :
    (∃ x stk, nextSigInDag st.dfs_path_stack = some (x, stk) ∧
      st' = ⟨x, stk, st.cells_visited⟩ ∧
      (net.driverOf st.sig = none ∨
        ∃ c, net.driverOf st.sig = some c ∧ c ∈ st.cells_visited)) ∨
    (∃ drv x xs, net.driverOf st.sig = some drv ∧ drv ∉ st.cells_visited ∧
      lookupAL drv net.cell_inputs_map = some (x :: xs) ∧
      st' = ⟨x, xs :: st.dfs_path_stack, drv :: st.cells_visited⟩) := by
  unfold wireStep at h
  split at h
  · rename_i drv hdrv
    split at h
    · rename_i hvis
      split at h
      · exact absurd h (by simp)
      · rename_i x stk hnx
        injection h with h'
        exact Or.inl ⟨x, stk, hnx, h'.symm, Or.inr ⟨drv, hdrv, hvis⟩⟩
    · rename_i hvis
      split at h
      · exact absurd h (by simp)
      · exact absurd h (by simp)
      · rename_i x xs hin
        injection h with h'
        exact Or.inr ⟨drv, x, xs, hdrv, hvis, hin, h'.symm⟩
  · rename_i hdrv
    split at h
    · exact absurd h (by simp)
    · rename_i x stk hnx
      injection h with h'
      exact Or.inl ⟨x, stk, hnx, h'.symm, Or.inl hdrv⟩

/-- Case analysis of a terminating `operator++`: the stack was empty of
pending bits, the final visited set is the state's, and the current bit
had no fresh driver. -/
theorem wireStep_fin_cases (net : Netlist) (st : NetlistConeWireIter)
    (v : List Cell) (h : wireStep net st = .fin v) :
    v = st.cells_visited ∧ nextSigInDag st.dfs_path_stack = none ∧
    (net.driverOf st.sig = none ∨
      ∃ c, net.driverOf st.sig = some c ∧ c ∈ st.cells_visited) := by
  unfold wireStep at h
  split at h
  · rename_i drv hdrv
    split at h
    · rename_i hvis
      split at h
      · rename_i hnx
        injection h with h'
        exact ⟨h'.symm, hnx, Or.inr ⟨drv, hdrv, hvis⟩⟩
      · exact absurd h (by simp)
    · split at h
      · exact absurd h (by simp)
      · exact absurd h (by simp)
      · exact absurd h (by simp)
  · rename_i hdrv
    split at h
    · rename_i hnx
      injection h with h'
      exact ⟨h'.symm, hnx, Or.inl hdrv⟩
    · exact absurd h (by simp)

/- ------------------------------------------------------------------
Basic properties of the fuelled bit-cone run.
------------------------------------------------------------------- -/

/-- With fuel exceeding the measure, the run never times out. -/
theorem coneFromFuel_noTimeout : ∀ (n : Nat) (net : Netlist)
    (st : NetlistConeWireIter), iterMeasure net st < n →
    coneFromFuel net n st ≠ .timeout := by
  intro n
  induction n with
  | zero => intro net st h; omega
  | succ n ih =>
    intro net st hlt
    simp only [coneFromFuel]
    cases hs : wireStep net st with
    | ub => simp
    | fin vis => simp
    | cont st' =>
      have hm := wireStep_measure net st st' hs
      have hnt := ih net st' (by omega)
      cases hr : coneFromFuel net n st' with
      | timeout => exact absurd hr hnt
      | ub => simp [hr]
      | ok l vis => simp [hr]

/-- A successful run yields the current bit first. -/
theorem coneFromFuel_head : ∀ (n : Nat) (net : Netlist)
    (st : NetlistConeWireIter) (bl : List SigBit) (vis : List Cell),
    coneFromFuel net n st = .ok bl vis → ∃ t, bl = st.sig :: t := by
  intro n
  cases n with
  | zero => intro net st bl vis h; simp [coneFromFuel] at h
  | succ n =>
    intro net st bl vis h
    simp only [coneFromFuel] at h
    cases hs : wireStep net st with
    | ub => rw [hs] at h; simp at h
    | fin v =>
      rw [hs] at h
      simp only [FuelRes.ok.injEq] at h
      exact ⟨[], h.1.symm⟩
    | cont st' =>
      rw [hs] at h
      simp only at h
      cases hr : coneFromFuel net n st' with
      | timeout => rw [hr] at h; simp at h
      | ub => rw [hr] at h; simp at h
      | ok l v =>
        rw [hr] at h
        simp only [FuelRes.ok.injEq] at h
        exact ⟨l, h.1.symm⟩

/-- Fuel irrelevance: any two sufficient budgets give the same result. -/
theorem coneFromFuel_mono : ∀ (m k : Nat) (net : Netlist)
    (st : NetlistConeWireIter), m ≤ k → coneFromFuel net m st ≠ .timeout →
    coneFromFuel net k st = coneFromFuel net m st := by
  intro m
  induction m with
  | zero => intro k net st _ hnt; exact absurd rfl hnt
  | succ m ih =>
    intro k net st hmk hnt
    obtain ⟨k, rfl⟩ : ∃ k', k = k' + 1 := ⟨k - 1, by omega⟩
    simp only [coneFromFuel] at hnt ⊢
    cases hs : wireStep net st with
    | ub => rfl
    | fin v => rfl
    | cont st' =>
      rw [hs] at hnt
      simp only at hnt ⊢
      cases hr : coneFromFuel net m st' with
      | timeout => rw [hr] at hnt; simp at hnt
      | ub => rw [ih k net st' (by omega) (by rw [hr]; simp), hr]
      | ok l v => rw [ih k net st' (by omega) (by rw [hr]; simp), hr]

/-- The visited set only grows along a run. -/
theorem coneFromFuel_visited_mono : ∀ (n : Nat) (net : Netlist)
    (st : NetlistConeWireIter) (bl : List SigBit) (vis : List Cell),
    coneFromFuel net n st = .ok bl vis → st.cells_visited ⊆ vis := by
  intro n
  induction n with
  | zero => intro net st bl vis h; simp [coneFromFuel] at h
  | succ n ih =>
    intro net st bl vis h
    simp only [coneFromFuel] at h
    cases hs : wireStep net st with
    | ub => rw [hs] at h; simp at h
    | fin v =>
      rw [hs] at h
      simp only [FuelRes.ok.injEq] at h
      obtain ⟨hv, _, _⟩ := wireStep_fin_cases net st v hs
      rw [← h.2, hv]
      exact fun a ha => ha
    | cont st' =>
      rw [hs] at h
      simp only at h
      cases hr : coneFromFuel net n st' with
      | timeout => rw [hr] at h; simp at h
      | ub => rw [hr] at h; simp at h
      | ok l v =>
        rw [hr] at h
        simp only [FuelRes.ok.injEq] at h
        have hsub := ih net st' l v hr
        rw [← h.2]
        rcases wireStep_cont_cases net st st' hs with
          ⟨x, stk, _, hst', _⟩ | ⟨drv, x, xs, _, _, _, hst'⟩
        · intro a ha
          exact hsub (by rw [hst']; exact ha)
        · intro a ha
          exact hsub (by rw [hst']; exact List.mem_cons_of_mem _ ha)

/-- Every bit pending in the state (current bit and stack frames) is
eventually yielded by a successful run. -/
theorem coneFromFuel_pending_yield : ∀ (n : Nat) (net : Netlist)
    (st : NetlistConeWireIter) (bl : List SigBit) (vis : List Cell),
    coneFromFuel net n st = .ok bl vis →
    st.sig ∈ bl ∧ ∀ f ∈ st.dfs_path_stack, ∀ x ∈ f, x ∈ bl := by
  intro n
  induction n with
  | zero => intro net st bl vis h; simp [coneFromFuel] at h
  | succ n ih =>
    intro net st bl vis h
    simp only [coneFromFuel] at h
    cases hs : wireStep net st with
    | ub => rw [hs] at h; simp at h
    | fin v =>
      rw [hs] at h
      simp only [FuelRes.ok.injEq] at h
      obtain ⟨_, hnx, _⟩ := wireStep_fin_cases net st v hs
      constructor
      · rw [← h.1]; exact List.mem_cons_self _ _
      · intro f hf x hx
        have := nextSigInDag_none _ hnx f hf
        subst this
        simp at hx
    | cont st' =>
      rw [hs] at h
      simp only at h
      cases hr : coneFromFuel net n st' with
      | timeout => rw [hr] at h; simp at h
      | ub => rw [hr] at h; simp at h
      | ok l v =>
        rw [hr] at h
        simp only [FuelRes.ok.injEq] at h
        obtain ⟨hsig', hstk'⟩ := ih net st' l v hr
        have hlsub : ∀ y, y ∈ l → y ∈ bl := by
          intro y hy; rw [← h.1]; exact List.mem_cons_of_mem _ hy
        constructor
        · rw [← h.1]; exact List.mem_cons_self _ _
        · intro f hf x hx
          rcases wireStep_cont_cases net st st' hs with
            ⟨z, stk, hnx, hst', _⟩ | ⟨drv, z, zs, _, _, _, hst'⟩
          · rcases nextSigInDag_some_sub _ _ _ hnx x ⟨f, hf, hx⟩ with hxz | ⟨g, hg, hxg⟩
            · subst hxz
              exact hlsub _ (by rw [hst'] at hsig'; exact hsig')
            · refine hlsub _ (hstk' g ?_ x hxg)
              rw [hst']
              exact hg
          · refine hlsub _ (hstk' f ?_ x hx)
            rw [hst']
            exact List.mem_cons_of_mem _ hf

/-- Every input bit of every newly visited cell is yielded. -/
theorem coneFromFuel_inputs_yield : ∀ (n : Nat) (net : Netlist)
    (st : NetlistConeWireIter) (bl : List SigBit) (vis : List Cell),
    coneFromFuel net n st = .ok bl vis → ∀ c ∈ vis,
    c ∈ st.cells_visited ∨ ∀ x ∈ net.inputsOf c, x ∈ bl := by
  intro n
  induction n with
  | zero => intro net st bl vis h; simp [coneFromFuel] at h
  | succ n ih =>
    intro net st bl vis h
    simp only [coneFromFuel] at h
    cases hs : wireStep net st with
    | ub => rw [hs] at h; simp at h
    | fin v =>
      rw [hs] at h
      simp only [FuelRes.ok.injEq] at h
      obtain ⟨hv, _, _⟩ := wireStep_fin_cases net st v hs
      intro c hc
      rw [← h.2, hv] at hc
      exact Or.inl hc
    | cont st' =>
      rw [hs] at h
      simp only at h
      cases hr : coneFromFuel net n st' with
      | timeout => rw [hr] at h; simp at h
      | ub => rw [hr] at h; simp at h
      | ok l v =>
        rw [hr] at h
        simp only [FuelRes.ok.injEq] at h
        have hlsub : ∀ y, y ∈ l → y ∈ bl := by
          intro y hy; rw [← h.1]; exact List.mem_cons_of_mem _ hy
        intro c hc
        rw [← h.2] at hc
        rcases ih net st' l v hr c hc with hcl | hcr
        · rcases wireStep_cont_cases net st st' hs with
            ⟨z, stk, hnx, hst', _⟩ | ⟨drv, z, zs, hdrv, hvis, hin, hst'⟩
          · rw [hst'] at hcl
            exact Or.inl hcl
          · rw [hst'] at hcl
            rcases List.mem_cons.mp hcl with hcd | hcl
            · subst hcd
              refine Or.inr ?_
              have hinp : net.inputsOf c = z :: zs := by
                simp [Netlist.inputsOf, hin]
              obtain ⟨hsig', hstk'⟩ := coneFromFuel_pending_yield n net st' l v hr
              intro x hx
              rw [hinp] at hx
              rcases List.mem_cons.mp hx with hxz | hxzs
              · subst hxz
                exact hlsub _ (by rw [hst'] at hsig'; exact hsig')
              · refine hlsub _ (hstk' zs ?_ x hxzs)
                rw [hst']
                exact List.mem_cons_self _ _
            · exact Or.inl hcl
        · exact Or.inr fun x hx => hlsub _ (hcr x hx)

/-- The driver of every yielded bit ends up in the final visited set. -/
theorem coneFromFuel_driver_visited : ∀ (n : Nat) (net : Netlist)
    (st : NetlistConeWireIter) (bl : List SigBit) (vis : List Cell),
    coneFromFuel net n st = .ok bl vis → ∀ x ∈ bl, ∀ c,
    net.driverOf x = some c → c ∈ vis := by
  intro n
  induction n with
  | zero => intro net st bl vis h; simp [coneFromFuel] at h
  | succ n ih =>
    intro net st bl vis h
    simp only [coneFromFuel] at h
    cases hs : wireStep net st with
    | ub => rw [hs] at h; simp at h
    | fin v =>
      rw [hs] at h
      simp only [FuelRes.ok.injEq] at h
      obtain ⟨hv, _, hdr⟩ := wireStep_fin_cases net st v hs
      intro x hx c hc
      rw [← h.1] at hx
      rcases List.mem_cons.mp hx with hxs | hxs
      · subst hxs
        rcases hdr with hdr | ⟨c', hc', hvc'⟩
        · rw [hdr] at hc; exact absurd hc (by simp)
        · rw [hc'] at hc
          injection hc with hcc
          rw [← h.2, hv]
          exact hcc ▸ hvc'
      · simp at hxs
    | cont st' =>
      rw [hs] at h
      simp only at h
      cases hr : coneFromFuel net n st' with
      | timeout => rw [hr] at h; simp at h
      | ub => rw [hr] at h; simp at h
      | ok l v =>
        rw [hr] at h
        simp only [FuelRes.ok.injEq] at h
        intro x hx c hc
        rw [← h.1] at hx
        rw [← h.2]
        rcases List.mem_cons.mp hx with hxs | hxl
        · subst hxs
          have hmono := coneFromFuel_visited_mono n net st' l v hr
          rcases wireStep_cont_cases net st st' hs with
            ⟨z, stk, hnx, hst', hnd⟩ | ⟨drv, z, zs, hdrv, hvis, hin, hst'⟩
          · rcases hnd with hnd | ⟨c', hc', hvc'⟩
            · rw [hnd] at hc; exact absurd hc (by simp)
            · rw [hc'] at hc
              injection hc with hcc
              refine hmono ?_
              rw [hst']
              exact hcc ▸ hvc'
          · rw [hdrv] at hc
            injection hc with hcc
            refine hmono ?_
            rw [hst']
            exact hcc ▸ List.mem_cons_self _ _
        · exact ih net st' l v hr x hxl c hc

/-- Every finally visited cell is the driver of some yielded bit. -/
theorem coneFromFuel_visited_driver : ∀ (n : Nat) (net : Netlist)
    (st : NetlistConeWireIter) (bl : List SigBit) (vis : List Cell),
    coneFromFuel net n st = .ok bl vis → ∀ c ∈ vis,
    c ∈ st.cells_visited ∨ ∃ x ∈ bl, net.driverOf x = some c := by
  intro n
  induction n with
  | zero => intro net st bl vis h; simp [coneFromFuel] at h
  | succ n ih =>
    intro net st bl vis h
    simp only [coneFromFuel] at h
    cases hs : wireStep net st with
    | ub => rw [hs] at h; simp at h
    | fin v =>
      rw [hs] at h
      simp only [FuelRes.ok.injEq] at h
      obtain ⟨hv, _, _⟩ := wireStep_fin_cases net st v hs
      intro c hc
      rw [← h.2, hv] at hc
      exact Or.inl hc
    | cont st' =>
      rw [hs] at h
      simp only at h
      cases hr : coneFromFuel net n st' with
      | timeout => rw [hr] at h; simp at h
      | ub => rw [hr] at h; simp at h
      | ok l v =>
        rw [hr] at h
        simp only [FuelRes.ok.injEq] at h
        intro c hc
        rw [← h.2] at hc
        rcases ih net st' l v hr c hc with hcl | ⟨x, hxl, hxc⟩
        · rcases wireStep_cont_cases net st st' hs with
            ⟨z, stk, hnx, hst', _⟩ | ⟨drv, z, zs, hdrv, hvis, hin, hst'⟩
          · rw [hst'] at hcl
            exact Or.inl hcl
          · rw [hst'] at hcl
            rcases List.mem_cons.mp hcl with hcd | hcl
            · subst hcd
              exact Or.inr ⟨st.sig, by rw [← h.1]; exact List.mem_cons_self _ _, hdrv⟩
            · exact Or.inl hcl
        · exact Or.inr ⟨x, by rw [← h.1]; exact List.mem_cons_of_mem _ hxl, hxc⟩

/-- `operator++` preserves the reachability invariant. -/
theorem wireInv_step (net : Netlist) (s : SigBit)
    (st st' : NetlistConeWireIter) (hinv : WireInv net s st)
    (h : wireStep net st = .cont st') : WireInv net s st' := by
  obtain ⟨hsig, hstk, hvis⟩ := hinv
  rcases wireStep_cont_cases net st st' h with
    ⟨x, stk, hnx, hst', _⟩ | ⟨drv, x, xs, hdrv, hnvis, hin, hst'⟩
  · subst hst'
    refine ⟨?_, ?_, hvis⟩
    · rcases nextSigInDag_some_sup _ _ _ hnx x (Or.inl rfl) with ⟨f, hf, hxf⟩
      exact Or.inr (hstk f hf x hxf)
    · intro f hf y hy
      rcases nextSigInDag_some_sup _ _ _ hnx y (Or.inr ⟨f, hf, hy⟩) with ⟨g, hg, hyg⟩
      exact hstk g hg y hyg
  · subst hst'
    have hinp : net.inputsOf drv = x :: xs := by
      simp [Netlist.inputsOf, hin]
    refine ⟨?_, ?_, ?_⟩
    · exact Or.inr ⟨drv, List.mem_cons_self _ _,
        by rw [hinp]; exact List.mem_cons_self _ _⟩
    · intro f hf y hy
      rcases List.mem_cons.mp hf with hfx | hfr
      · subst hfx
        exact ⟨drv, List.mem_cons_self _ _,
          by rw [hinp]; exact List.mem_cons_of_mem _ hy⟩
      · obtain ⟨c, hc, hyc⟩ := hstk f hfr y hy
        exact ⟨c, List.mem_cons_of_mem _ hc, hyc⟩
    · refine ⟨?_, hvis⟩
      rcases hsig with hsig | ⟨c, hc, hsc⟩
      · exact Or.inl (hsig ▸ hdrv)
      · exact Or.inr ⟨c, hc, st.sig, hsc, hdrv⟩

/-- A successful run from an invariant-respecting state ends with a
discovery-closed visited list. -/
theorem coneFromFuel_closedVis : ∀ (n : Nat) (net : Netlist) (s : SigBit)
    (st : NetlistConeWireIter) (bl : List SigBit) (vis : List Cell),
    WireInv net s st → coneFromFuel net n st = .ok bl vis →
    ClosedVis net s vis := by
  intro n
  induction n with
  | zero => intro net s st bl vis _ h; simp [coneFromFuel] at h
  | succ n ih =>
    intro net s st bl vis hinv h
    simp only [coneFromFuel] at h
    cases hs : wireStep net st with
    | ub => rw [hs] at h; simp at h
    | fin v =>
      rw [hs] at h
      simp only [FuelRes.ok.injEq] at h
      obtain ⟨hv, _, _⟩ := wireStep_fin_cases net st v hs
      rw [← h.2, hv]
      exact hinv.2.2
    | cont st' =>
      rw [hs] at h
      simp only at h
      cases hr : coneFromFuel net n st' with
      | timeout => rw [hr] at h; simp at h
      | ub => rw [hr] at h; simp at h
      | ok l v =>
        rw [hr] at h
        simp only [FuelRes.ok.injEq] at h
        rw [← h.2]
        exact ih net s st' l v (wireInv_step net s st st' hinv hs) hr

/-- A discovery-closed visited list contains only fan-in cells. -/
theorem closedVis_coneCell (net : Netlist) (s : SigBit) :
    ∀ (vis : List Cell), ClosedVis net s vis →
    ∀ c ∈ vis, ConeCell net s c := by
  intro vis
  induction vis with
  | nil => intro _ c hc; simp at hc
  | cons c₀ older ih =>
    intro hcl c hc
    obtain ⟨hhd, htl⟩ := hcl
    rcases List.mem_cons.mp hc with hc0 | hcr
    · subst hc0
      rcases hhd with hhd | ⟨c', hc', x, hx, hxc⟩
      · exact ConeCell.start c hhd
      · exact ConeCell.step c' x c (ih htl c' hc') hx hxc
    · exact ih htl c hcr

/-- The initial iterator state satisfies the invariant. -/
theorem wireInv_begin (net : Netlist) (s : SigBit) :
    WireInv net s ⟨s, [], []⟩ := by
  refine ⟨Or.inl rfl, ?_, trivial⟩
  intro f hf
  simp at hf

/-- Completeness: every fan-in cell is visited by a successful run from
the initial state. -/
theorem coneFromFuel_complete (n : Nat) (net : Netlist) (s : SigBit)
    (bl : List SigBit) (vis : List Cell)
    (h : coneFromFuel net n ⟨s, [], []⟩ = .ok bl vis) :
    ∀ c, ConeCell net s c → c ∈ vis := by
  intro c hc
  induction hc with
  | start c hdrv =>
    have hs : s ∈ bl := (coneFromFuel_pending_yield n net _ bl vis h).1
    exact coneFromFuel_driver_visited n net _ bl vis h s hs c hdrv
  | step c' x c hc' hx hxc ih =>
    rcases coneFromFuel_inputs_yield n net _ bl vis h c' ih with hfalse | hyld
    · simp at hfalse
    · exact coneFromFuel_driver_visited n net _ bl vis h x (hyld x hx) c hxc

/-- Soundness: every visited cell of a successful run from the initial
state is a fan-in cell. -/
theorem coneFromFuel_sound (n : Nat) (net : Netlist) (s : SigBit)
    (bl : List SigBit) (vis : List Cell)
    (h : coneFromFuel net n ⟨s, [], []⟩ = .ok bl vis) :
    ∀ c ∈ vis, ConeCell net s c :=
  closedVis_coneCell net s vis
    (coneFromFuel_closedVis n net s _ bl vis (wireInv_begin net s) h)

/- ------------------------------------------------------------------
`firstDedup` lemmas.
------------------------------------------------------------------- -/

theorem firstDedup_mem : ∀ (l seen : List Cell) (c : Cell),
    c ∈ firstDedup seen l ↔ c ∈ l ∧ c ∉ seen := by
  intro l
  induction l with
  | nil => intro seen c; simp [firstDedup]
  | cons x xs ih =>
    intro seen c
    simp only [firstDedup]
    by_cases hx : x ∈ seen
    · rw [if_pos hx, ih]
      constructor
      · rintro ⟨hc, hcs⟩
        exact ⟨List.mem_cons_of_mem _ hc, hcs⟩
      · rintro ⟨hc, hcs⟩
        rcases List.mem_cons.mp hc with hcx | hcxs
        · exact absurd (hcx ▸ hx) hcs
        · exact ⟨hcxs, hcs⟩
    · rw [if_neg hx]
      simp only [List.mem_cons, ih]
      constructor
      · rintro (hcx | ⟨hc, hcs⟩)
        · subst hcx; exact ⟨Or.inl rfl, hx⟩
        · exact ⟨Or.inr hc, fun hcseen => hcs (Or.inr hcseen)⟩
      · rintro ⟨hcx | hc, hcs⟩
        · exact Or.inl hcx
        · by_cases hcx : c = x
          · exact Or.inl hcx
          · exact Or.inr ⟨hc, fun hor => hor.elim hcx hcs⟩

theorem firstDedup_nodup : ∀ (l seen : List Cell),
    (firstDedup seen l).Nodup := by
  intro l
  induction l with
  | nil => intro seen; simp [firstDedup]
  | cons x xs ih =>
    intro seen
    simp only [firstDedup]
    by_cases hx : x ∈ seen
    · rw [if_pos hx]; exact ih seen
    · rw [if_neg hx]
      refine List.nodup_cons.mpr ⟨?_, ih (x :: seen)⟩
      intro hmem
      exact ((firstDedup_mem xs (x :: seen) x).mp hmem).2 (List.mem_cons_self _ _)

/- ------------------------------------------------------------------
The visited set right after one `operator++`.
------------------------------------------------------------------- -/

/-- The inner iterator's visited set after `operator++` (unchanged if
the step terminates the range). -/
def postVisited (net : Netlist) (st : NetlistConeWireIter) : List Cell :=
  match wireStep net st with
  | .cont st' => st'.cells_visited
  | _ => st.cells_visited

theorem postVisited_cont (net : Netlist) (st st' : NetlistConeWireIter)
    (h : wireStep net st = .cont st') :
    postVisited net st = st'.cells_visited := by
  unfold postVisited
  rw [h]

/-- When the current bit has no fresh driver, `operator++` does not
extend the visited set. -/
theorem postVisited_no_push (net : Netlist) (st : NetlistConeWireIter)
    (h : net.driverOf st.sig = none ∨
      ∃ c, net.driverOf st.sig = some c ∧ c ∈ st.cells_visited) :
    postVisited net st = st.cells_visited := by
  unfold postVisited
  cases hs : wireStep net st with
  | ub => rfl
  | fin v => rfl
  | cont st' =>
    rcases wireStep_cont_cases net st st' hs with
      ⟨x, stk, _, hst', _⟩ | ⟨drv, x, xs, hdrv, hnvis, _, _⟩
    · subst hst'; rfl
    · rcases h with hnone | ⟨c, hc, hcvis⟩
      · rw [hnone] at hdrv; exact absurd hdrv (by simp)
      · rw [hc] at hdrv
        injection hdrv with he
        rw [he] at hcvis
        exact absurd hcvis hnvis

/-- When the current bit has a fresh driver and the step does not hit
undefined behaviour, `operator++` marks exactly that driver visited. -/
theorem postVisited_push (net : Netlist) (st : NetlistConeWireIter)
    (c : Cell) (hd : net.driverOf st.sig = some c)
    (hnv : c ∉ st.cells_visited) (hne : wireStep net st ≠ .ub) :
    postVisited net st = c :: st.cells_visited := by
  unfold postVisited
  cases hs : wireStep net st with
  | ub => exact absurd hs hne
  | fin v =>
    obtain ⟨_, _, hdr⟩ := wireStep_fin_cases net st v hs
    rcases hdr with hnone | ⟨c', hc', hvc'⟩
    · rw [hd] at hnone; exact absurd hnone (by simp)
    · rw [hd] at hc'
      injection hc' with he
      rw [← he] at hvc'
      exact absurd hvc' hnv
  | cont st' =>
    rcases wireStep_cont_cases net st st' hs with
      ⟨x, stk, _, _, hnd⟩ | ⟨drv, x, xs, hdrv, hnvis, _, hst'⟩
    · rcases hnd with hnone | ⟨c', hc', hvc'⟩
      · rw [hd] at hnone; exact absurd hnone (by simp)
      · rw [hd] at hc'
        injection hc' with he
        rw [← he] at hvc'
        exact absurd hvc' hnv
    · rw [hd] at hdrv
      injection hdrv with he
      rw [hst', ← he]

/- ------------------------------------------------------------------
Fuel administration for the cell iterator.
------------------------------------------------------------------- -/

theorem cellNextFuel_mono : ∀ (m k : Nat) (net : Netlist)
    (st : NetlistConeWireIter), m ≤ k → cellNextFuel net m st ≠ .timeout →
    cellNextFuel net k st = cellNextFuel net m st := by
  intro m
  induction m with
  | zero => intro k net st _ hnt; exact absurd rfl hnt
  | succ m ih =>
    intro k net st hmk hnt
    obtain ⟨k, rfl⟩ : ∃ k', k = k' + 1 := ⟨k - 1, by omega⟩
    simp only [cellNextFuel] at hnt ⊢
    cases hs : wireStep net st with
    | ub => rfl
    | fin v => rfl
    | cont st' =>
      rw [hs] at hnt
      simp only at hnt ⊢
      cases hd : net.driverOf st'.sig with
      | none =>
        rw [hd] at hnt
        simp only at hnt
        exact ih k net st' (by omega) hnt
      | some c =>
        rw [hd] at hnt
        simp only at hnt ⊢
        by_cases hv : c ∈ st'.cells_visited
        · simp only [if_pos hv] at hnt ⊢
          exact ih k net st' (by omega) hnt
        · simp only [if_neg hv]

theorem cellConeFuel_mono : ∀ (m k : Nat) (net : Netlist)
    (st : NetlistConeWireIter), m ≤ k → cellConeFuel net m st ≠ .timeout →
    cellConeFuel net k st = cellConeFuel net m st := by
  intro m
  induction m with
  | zero => intro k net st _ hnt; exact absurd rfl hnt
  | succ m ih =>
    intro k net st hmk hnt
    obtain ⟨k, rfl⟩ : ∃ k', k = k' + 1 := ⟨k - 1, by omega⟩
    simp only [cellConeFuel] at hnt ⊢
    cases hd : net.driverOf st.sig with
    | none => rfl
    | some c =>
      rw [hd] at hnt
      simp only at hnt ⊢
      have hne : cellNextFuel net (m + 1) st ≠ .timeout := by
        intro hcn
        rw [hcn] at hnt
        simp at hnt
      rw [cellNextFuel_mono (m + 1) (k + 1) net st (by omega) hne]
      cases hcn : cellNextFuel net (m + 1) st with
      | timeout => exact absurd hcn hne
      | ub => rfl
      | finished => rfl
      | stopped st' =>
        rw [hcn] at hnt
        simp only at hnt ⊢
        have hnecc : cellConeFuel net m st' ≠ .timeout := by
          intro hcc
          rw [hcc] at hnt
          simp at hnt
        cases hcc : cellConeFuel net m st' with
        | timeout => exact absurd hcc hnecc
        | abnormal => rw [ih k net st' (by omega) hnecc, hcc]
        | ok l => rw [ih k net st' (by omega) hnecc, hcc]

theorem cellNextFuel_noTimeout : ∀ (n : Nat) (net : Netlist)
    (st : NetlistConeWireIter), iterMeasure net st < n →
    cellNextFuel net n st ≠ .timeout := by
  intro n
  induction n with
  | zero => intro net st h; omega
  | succ n ih =>
    intro net st hlt
    simp only [cellNextFuel]
    cases hs : wireStep net st with
    | ub => simp
    | fin v => simp
    | cont st' =>
      simp only
      have hm := wireStep_measure net st st' hs
      cases hd : net.driverOf st'.sig with
      | none =>
        simp only
        exact ih net st' (by omega)
      | some c =>
        simp only
        by_cases hv : c ∈ st'.cells_visited
        · simp only [if_pos hv]
          exact ih net st' (by omega)
        · simp only [if_neg hv]
          simp

theorem cellNextFuel_stopped_measure : ∀ (n : Nat) (net : Netlist)
    (st st' : NetlistConeWireIter), cellNextFuel net n st = .stopped st' →
    iterMeasure net st' < iterMeasure net st := by
  intro n
  induction n with
  | zero => intro net st st' h; simp [cellNextFuel] at h
  | succ n ih =>
    intro net st st' h
    simp only [cellNextFuel] at h
    cases hs : wireStep net st with
    | ub => rw [hs] at h; simp at h
    | fin v => rw [hs] at h; simp at h
    | cont st₁ =>
      rw [hs] at h
      simp only at h
      have hm := wireStep_measure net st st₁ hs
      cases hd : net.driverOf st₁.sig with
      | none =>
        rw [hd] at h
        simp only at h
        exact lt_trans (ih net st₁ st' h) hm
      | some c =>
        rw [hd] at h
        simp only at h
        by_cases hv : c ∈ st₁.cells_visited
        · rw [if_pos hv] at h
          exact lt_trans (ih net st₁ st' h) hm
        · rw [if_neg hv] at h
          injection h with he
          rw [← he]
          exact hm

theorem cellConeFuel_noTimeout : ∀ (n : Nat) (net : Netlist)
    (st : NetlistConeWireIter), iterMeasure net st < n →
    cellConeFuel net n st ≠ .timeout := by
  intro n
  induction n with
  | zero => intro net st h; omega
  | succ n ih =>
    intro net st hlt
    simp only [cellConeFuel]
    cases hd : net.driverOf st.sig with
    | none => simp
    | some c =>
      cases hcn : cellNextFuel net (n + 1) st with
      | timeout => exact absurd hcn (cellNextFuel_noTimeout (n + 1) net st hlt)
      | ub => simp
      | finished => simp
      | stopped st' =>
        have hm := cellNextFuel_stopped_measure (n + 1) net st st' hcn
        cases hcc : cellConeFuel net n st' with
        | timeout => exact absurd hcc (ih net st' (by omega))
        | abnormal => simp [hcc]
        | ok l => simp [hcc]

/-- `NetlistConeCellIter::operator++` versus the underlying bit run:
skipping bits without a fresh driver is first-discovery deduplication of
the drivers of the remaining bit sequence. -/
theorem cellNextFuel_rel : ∀ (n : Nat) (net : Netlist)
    (st : NetlistConeWireIter) (bl : List SigBit) (vis : List Cell),
    coneFromFuel net n st = .ok (st.sig :: bl) vis →
    match cellNextFuel net n st with
    | .timeout => False
    | .ub => False
    | .finished =>
        firstDedup (postVisited net st) (bl.filterMap net.driverOf) = []
    | .stopped st' => ∃ m bl', m < n ∧
        coneFromFuel net m st' = .ok (st'.sig :: bl') vis ∧
        (∃ c, net.driverOf st'.sig = some c ∧ c ∉ st'.cells_visited) ∧
        firstDedup (postVisited net st) (bl.filterMap net.driverOf) =
          firstDedup st'.cells_visited
            ((st'.sig :: bl').filterMap net.driverOf) := by
  intro n
  induction n with
  | zero => intro net st bl vis h; simp [coneFromFuel] at h
  | succ n ih =>
    intro net st bl vis h
    simp only [coneFromFuel] at h
    simp only [cellNextFuel]
    cases hs : wireStep net st with
    | ub => rw [hs] at h; simp at h
    | fin v =>
      rw [hs] at h
      simp only [FuelRes.ok.injEq] at h
      simp only
      have hbl : bl = [] := by
        have h1 := h.1
        injection h1 with _ h2
        exact h2.symm
      rw [hbl]
      rfl
    | cont st₁ =>
      rw [hs] at h
      simp only at h
      cases hr : coneFromFuel net n st₁ with
      | timeout => rw [hr] at h; simp at h
      | ub => rw [hr] at h; simp at h
      | ok l v =>
        rw [hr] at h
        simp only [FuelRes.ok.injEq] at h
        obtain ⟨hl, hv⟩ := h
        have hlbl : bl = l := by injection hl with _ h2; exact h2.symm
        subst hlbl
        subst hv
        obtain ⟨t, ht⟩ := coneFromFuel_head n net st₁ bl v hr
        subst ht
        have hpv : postVisited net st = st₁.cells_visited :=
          postVisited_cont net st st₁ hs
        simp only
        cases hd : net.driverOf st₁.sig with
        | none =>
          simp only
          have hIH := ih net st₁ t v hr
          have hpv1 : postVisited net st₁ = st₁.cells_visited :=
            postVisited_no_push net st₁ (Or.inl hd)
          cases hcn : cellNextFuel net n st₁ with
          | timeout => rw [hcn] at hIH; exact hIH
          | ub => rw [hcn] at hIH; exact hIH
          | finished =>
            rw [hcn] at hIH
            simp only at hIH ⊢
            rw [hpv, List.filterMap_cons_none hd, ← hpv1]
            exact hIH
          | stopped st'' =>
            rw [hcn] at hIH
            simp only at hIH ⊢
            obtain ⟨m, bl', hm, hok, hacc, heq⟩ := hIH
            refine ⟨m, bl', by omega, hok, hacc, ?_⟩
            rw [hpv, List.filterMap_cons_none hd, ← hpv1]
            exact heq
        | some c =>
          simp only
          by_cases hcv : c ∈ st₁.cells_visited
          · simp only [if_pos hcv]
            have hIH := ih net st₁ t v hr
            have hpv1 : postVisited net st₁ = st₁.cells_visited :=
              postVisited_no_push net st₁ (Or.inr ⟨c, hd, hcv⟩)
            cases hcn : cellNextFuel net n st₁ with
            | timeout => rw [hcn] at hIH; exact hIH
            | ub => rw [hcn] at hIH; exact hIH
            | finished =>
              rw [hcn] at hIH
              simp only at hIH ⊢
              rw [hpv, List.filterMap_cons_some hd]
              simp only [firstDedup, if_pos hcv]
              rw [← hpv1]
              exact hIH
            | stopped st'' =>
              rw [hcn] at hIH
              simp only at hIH ⊢
              obtain ⟨m, bl', hm, hok, hacc, heq⟩ := hIH
              refine ⟨m, bl', by omega, hok, hacc, ?_⟩
              rw [hpv, List.filterMap_cons_some hd]
              simp only [firstDedup, if_pos hcv]
              rw [← hpv1]
              exact heq
          · simp only [if_neg hcv]
            refine ⟨n, t, by omega, hr, ⟨c, hd, hcv⟩, ?_⟩
            rw [hpv]

/-- Consuming the cell iterator from a yield position (current bit has a
fresh driver) produces the first-discovery deduplication of the drivers
of the remaining bit sequence. -/
theorem cellConeFuel_rel : ∀ (n : Nat) (net : Netlist)
    (st : NetlistConeWireIter) (bl : List SigBit) (vis : List Cell)
    (c : Cell), coneFromFuel net n st = .ok (st.sig :: bl) vis →
    net.driverOf st.sig = some c → c ∉ st.cells_visited →
    cellConeFuel net n st =
      .ok (firstDedup st.cells_visited
        ((st.sig :: bl).filterMap net.driverOf)) := by
  intro n
  induction n using Nat.strong_induction_on with
  | _ n ih =>
    intro net st bl vis c h hd hnv
    obtain ⟨n, rfl⟩ : ∃ k, n = k + 1 := by
      cases n with
      | zero => simp [coneFromFuel] at h
      | succ k => exact ⟨k, rfl⟩
    simp only [cellConeFuel]
    rw [hd]
    simp only
    have hP2 := cellNextFuel_rel (n + 1) net st bl vis h
    have hne : wireStep net st ≠ .ub := by
      intro hub
      simp only [coneFromFuel] at h
      rw [hub] at h
      simp at h
    have hpv : postVisited net st = c :: st.cells_visited :=
      postVisited_push net st c hd hnv hne
    rw [List.filterMap_cons_some hd]
    have hfd : firstDedup st.cells_visited
        (c :: bl.filterMap net.driverOf) =
        c :: firstDedup (c :: st.cells_visited)
          (bl.filterMap net.driverOf) := by
      simp only [firstDedup, if_neg hnv]
    rw [hfd]
    cases hcn : cellNextFuel net (n + 1) st with
    | timeout =>
      rw [hcn] at hP2
      simp only at hP2
    | ub =>
      rw [hcn] at hP2
      simp only at hP2
    | finished =>
      rw [hcn] at hP2
      simp only at hP2
      rw [hpv] at hP2
      simp only
      rw [hP2]
    | stopped st' =>
      rw [hcn] at hP2
      simp only at hP2
      obtain ⟨m, bl', hm, hok, ⟨c', hd', hnv'⟩, heq⟩ := hP2
      rw [hpv] at heq
      have hrec := ih m (by omega) net st' bl' vis c' hok hd' hnv'
      have hmono : cellConeFuel net n st' = cellConeFuel net m st' := by
        refine cellConeFuel_mono m n net st' (by omega) ?_
        rw [hrec]
        simp
      simp only
      rw [hmono, hrec]
      simp only
      rw [heq]

/-- `cell_cone(net, b)` is the first-discovery deduplication of the
drivers of the bits yielded by `cone(net, b)` (for successful runs). -/
theorem cellConeRun_rel (net : Netlist) (b : SigBit) (bl : List SigBit)
    (vis : List Cell) (h : coneRun net b = .ok bl vis) :
    cellConeRun net b = .ok (firstDedup [] (bl.filterMap net.driverOf)) := by
  unfold coneRun at h
  obtain ⟨t, ht⟩ := coneFromFuel_head _ net _ bl vis h
  subst ht
  simp only [cellConeRun, cellConeRunWith]
  cases hd : net.driverOf (coneBegin net b).sig with
  | some c =>
    simp only
    have hx := cellConeFuel_rel _ net (coneBegin net b) t vis c h hd
      (by simp [coneBegin])
    exact hx
  | none =>
    simp only
    have hP2 := cellNextFuel_rel _ net (coneBegin net b) t vis h
    have hpv : postVisited net (coneBegin net b) =
        (coneBegin net b).cells_visited :=
      postVisited_no_push net _ (Or.inl hd)
    rw [List.filterMap_cons_none hd]
    cases hcn : cellNextFuel net
        (iterMeasure net (coneBegin net b) + 1) (coneBegin net b) with
    | timeout => rw [hcn] at hP2; simp only at hP2
    | ub => rw [hcn] at hP2; simp only at hP2
    | finished =>
      rw [hcn] at hP2
      simp only at hP2
      rw [hpv] at hP2
      simp only [coneBegin] at hP2
      simp only
      rw [hP2]
    | stopped st' =>
      rw [hcn] at hP2
      simp only at hP2
      obtain ⟨m, bl', hm, hok, ⟨c', hd', hnv'⟩, heq⟩ := hP2
      have hrec := cellConeFuel_rel m net st' bl' vis c' hok hd' hnv'
      have hmono : cellConeFuel net
          (iterMeasure net (coneBegin net b) + 1) st' =
          cellConeFuel net m st' := by
        refine cellConeFuel_mono m _ net st' (by omega) ?_
        rw [hrec]
        simp
      simp only
      rw [hmono, hrec]
      rw [hpv] at heq
      simp only [coneBegin] at heq
      rw [heq]

/- ------------------------------------------------------------------
Lemmas about index construction (`setup_netlist`).
------------------------------------------------------------------- -/

theorem lookupAL_append {β : Type} (k : Nat) :
    ∀ (l1 l2 : List (Nat × β)), lookupAL k (l1 ++ l2) =
    match lookupAL k l1 with
    | some v => some v
    | none => lookupAL k l2 := by
  intro l1 l2
  induction l1 with
  | nil => simp [lookupAL]
  | cons p rest ih =>
    obtain ⟨k', v'⟩ := p
    by_cases hk : k = k'
    · simp [lookupAL, hk]
    · simp only [List.cons_append, lookupAL, if_neg hk]
      exact ih

theorem lookupAL_map_const (bb : SigBit) (i : Cell) :
    ∀ (outs : List SigBit),
    lookupAL bb (outs.map fun o => (o, i)) =
    if bb ∈ outs then some i else none := by
  intro outs
  induction outs with
  | nil => simp [lookupAL]
  | cons o os ih =>
    by_cases hb : bb = o
    · simp [lookupAL, hb]
    · simp only [List.map_cons, lookupAL, if_neg hb, ih]
      by_cases hm : bb ∈ os
      · rw [if_pos hm, if_pos (List.mem_cons_of_mem _ hm)]
      · rw [if_neg hm, if_neg (by simp [List.mem_cons, hb, hm])]

theorem setInsert_mem (a x : Nat) : ∀ (l : List Nat),
    a ∈ setInsert x l ↔ a = x ∨ a ∈ l := by
  intro l
  induction l with
  | nil => simp [setInsert]
  | cons y ys ih =>
    simp only [setInsert]
    by_cases h1 : x < y
    · rw [if_pos h1]; simp
    · rw [if_neg h1]
      by_cases h2 : x = y
      · rw [if_pos h2]
        subst h2
        simp [List.mem_cons]
      · rw [if_neg h2]
        simp only [List.mem_cons, ih]
        tauto

theorem setInsertMany_mem (a : Nat) : ∀ (xs s : List Nat),
    a ∈ setInsertMany s xs ↔ a ∈ s ∨ a ∈ xs := by
  intro xs
  induction xs with
  | nil => intro s; simp [setInsertMany]
  | cons x rest ih =>
    intro s
    simp only [setInsertMany, List.foldl_cons]
    have : setInsertMany (setInsert x s) rest =
        List.foldl (fun a b => setInsert b a) (setInsert x s) rest := rfl
    rw [← this, ih, setInsert_mem]
    simp [List.mem_cons]
    tauto

/-- Membership in the output-bit set assembled by `setup_netlist`'s
port loop. -/
theorem portSets_out_mem (sm : SigBit → SigBit) (ct : CellTypes) (t : Nat)
    (bb : SigBit) : ∀ (conns : List PortConn),
    bb ∈ (portSets sm ct t conns).2 ↔
    ∃ p ∈ conns, ct.cell_output t p.pname = true ∧
      ∃ r ∈ p.bits, sm r = bb := by
  intro conns
  induction conns with
  | nil => simp [portSets]
  | cons p ps ih =>
    simp only [portSets]
    by_cases hout : ct.cell_output t p.pname
    · rw [if_pos hout]
      simp only [setInsertMany_mem, ih, List.mem_map, List.mem_cons]
      constructor
      · rintro (⟨q, hq, hqo, r, hr, hrb⟩ | ⟨r, hr, hrb⟩)
        · exact ⟨q, Or.inr hq, hqo, r, hr, hrb⟩
        · exact ⟨p, Or.inl rfl, hout, r, hr, hrb⟩
      · rintro ⟨q, hq | hq, hqo, r, hr, hrb⟩
        · subst hq
          exact Or.inr ⟨r, hr, hrb⟩
        · exact Or.inl ⟨q, hq, hqo, r, hr, hrb⟩
    · rw [if_neg hout]
      simp only [ih, List.mem_cons]
      constructor
      · rintro ⟨q, hq, hqo, r, hr, hrb⟩
        exact ⟨q, Or.inr hq, hqo, r, hr, hrb⟩
      · rintro ⟨q, hq | hq, hqo, r, hr, hrb⟩
        · subst hq
          exact absurd hqo (by simpa using hout)
        · exact ⟨q, hq, hqo, r, hr, hrb⟩

/-- Does a classified `cell` drive canonical bit `bb`? -/
def drivesOut (sm : SigBit → SigBit) (ct : CellTypes) (bb : SigBit)
    (cell : RawCell) : Bool :=
  ct.cell_known cell.ctype &&
    decide (bb ∈ (portSets sm ct cell.ctype cell.conns).2)

/-- The driver map built by `setup_netlist` maps a canonical bit to the
last classified cell in enumeration order whose output set contains it
(last write wins). -/
theorem setup_driver_lookup (sm : SigBit → SigBit) (ct : CellTypes) :
    ∀ (cells : List RawCell) (bb : SigBit),
    (setup_netlist sm ct cells).driverOf bb =
    (cells.reverse.find? (drivesOut sm ct bb)).map RawCell.id := by
  intro cells
  induction cells using List.reverseRecOn with
  | nil => intro bb; rfl
  | append_singleton cells cell ih =>
    intro bb
    simp only [Netlist.driverOf, setup_netlist, List.foldl_append,
      List.foldl_cons, List.foldl_nil, List.reverse_append,
      List.reverse_cons, List.reverse_nil, List.nil_append,
      List.cons_append, List.find?]
    by_cases hk : ct.cell_known cell.ctype
    · rw [if_pos hk]
      by_cases hb : bb ∈ (portSets sm ct cell.ctype cell.conns).2
      · have hdo : drivesOut sm ct bb cell = true := by
          simp [drivesOut, hk, hb]
        rw [hdo]
        simp only [lookupAL_append, lookupAL_map_const, if_pos hb,
          Option.map_some']
      · have hdo : drivesOut sm ct bb cell = false := by
          simp [drivesOut, hb]
        rw [hdo]
        simp only [lookupAL_append, lookupAL_map_const, if_neg hb]
        exact ih bb
    · rw [if_neg hk]
      have hdo : drivesOut sm ct bb cell = false := by
        simp [drivesOut, hk]
      rw [hdo]
      exact ih bb

/-- Every key of the inputs map built by `setup_netlist` is the id of a
classified cell. -/
theorem setup_inputs_key (sm : SigBit → SigBit) (ct : CellTypes) :
    ∀ (cells : List RawCell) (cid : Cell) (l : List SigBit),
    lookupAL cid (setup_netlist sm ct cells).cell_inputs_map = some l →
    ∃ cell ∈ cells, ct.cell_known cell.ctype = true ∧ cell.id = cid := by
  intro cells
  induction cells using List.reverseRecOn with
  | nil => intro cid l h; simp [setup_netlist, lookupAL] at h
  | append_singleton cells cell ih =>
    intro cid l h
    simp only [setup_netlist, List.foldl_append, List.foldl_cons,
      List.foldl_nil] at h
    by_cases hk : ct.cell_known cell.ctype
    · rw [if_pos hk] at h
      simp only [lookupAL] at h
      by_cases hc : cid = cell.id
      · exact ⟨cell, List.mem_append_right _ (List.mem_singleton.mpr rfl),
          hk, hc.symm⟩
      · rw [if_neg hc] at h
        obtain ⟨q, hq, hqk, hqi⟩ := ih cid l h
        exact ⟨q, List.mem_append_left _ hq, hqk, hqi⟩
    · rw [if_neg hk] at h
      obtain ⟨q, hq, hqk, hqi⟩ := ih cid l h
      exact ⟨q, List.mem_append_left _ hq, hqk, hqi⟩

/- ------------------------------------------------------------------
Concrete driver indices for the testable scenarios (built through
`setup_netlist`; port name 9 is the single output port).
------------------------------------------------------------------- -/

/-- Oracle classifying every cell type, with port 9 as the output. -/
def ctOut : CellTypes := ⟨fun _ => true, fun _ p => p == 9⟩

/-- Empty module: no cells, identity canonicalizer. -/
def eNet : Netlist := setup_netlist id ctOut []

/-- Two-cell combinational loop `A -> bitX -> B -> bitY -> A`:
cell `A` (id 0) consumes `bitY` (1) and drives `bitX` (0);
cell `B` (id 1) consumes `bitX` (0) and drives `bitY` (1). -/
def loopCells : List RawCell :=
  [⟨0, 0, [⟨0, [1]⟩, ⟨9, [0]⟩]⟩, ⟨1, 0, [⟨0, [0]⟩, ⟨9, [1]⟩]⟩]

def loopNet : Netlist := setup_netlist id ctOut loopCells

/-- A classified cell (id 0) with only an output port: its recorded
input-bit set is empty. -/
def constCells : List RawCell := [⟨0, 0, [⟨9, [0]⟩]⟩]

def constNet : Netlist := setup_netlist id ctOut constCells

/-- `c1 = AND(in0, in1) -> w1`, `c2 = AND(w1, in2) -> out` with
`in0 = 0`, `in1 = 1`, `w1 = 2`, `in2 = 3`, `out = 4`, `c1` id 10,
`c2` id 20. -/
def c8Cells : List RawCell :=
  [⟨10, 0, [⟨0, [0]⟩, ⟨1, [1]⟩, ⟨9, [2]⟩]⟩,
   ⟨20, 0, [⟨0, [2]⟩, ⟨1, [3]⟩, ⟨9, [4]⟩]⟩]

def c8Net : Netlist := setup_netlist id ctOut c8Cells

example : coneRun loopNet 0 = .ok [0, 1, 0] [1, 0] := by decide
example : cellConeRun loopNet 0 = .ok [0, 1] := by decide
example : coneRun constNet 0 = .ub := by decide
example : cellConeRun constNet 0 = .abnormal := by decide
example : coneRun c8Net 4 = .ok [4, 2, 0, 1, 3] [10, 20] := by decide
example : cellConeRun c8Net 4 = .ok [20, 10] := by decide
example : coneList eNet 5 = some [5] := by decide
example : cellConeList eNet 5 = some [] := by decide

/- ------------------------------------------------------------------
Shared helper: the very first `operator++` on an undriven start bit.
------------------------------------------------------------------- -/

theorem wireStep_begin_undriven (net : Netlist) (b : SigBit)
    (hd : net.driverOf (net.sigmap b) = none) :
    wireStep net (coneBegin net b) = .fin [] := by
  have hd' : net.driverOf (coneBegin net b).sig = none := hd
  unfold wireStep
  rw [hd']
  rfl

/- ------------------------------------------------------------------
The claims.
------------------------------------------------------------------- -/

/-- C1: for every driver index and every traversal state, the bit-cone
traversal terminates — with fuel above the measure it never runs out —
and in the two-cell combinational loop `A -> bitX -> B -> bitY -> A`
(`A` = cell 0 driving `bitX` = 0, `B` = cell 1 driving `bitY` = 1),
`cone(index, bitX)` yields the finite sequence `[bitX, bitY, bitX]`,
which includes `bitY`, and `A` is expanded only once: it appears exactly
once in the final visited set. -/
theorem claim1_cycle_termination :
    (∀ (net : Netlist) (st : NetlistConeWireIter) (n : Nat),
      iterMeasure net st < n → coneFromFuel net n st ≠ .timeout) ∧
    coneRun loopNet 0 = .ok [0, 1, 0] [1, 0] ∧
    (1 : SigBit) ∈ ([0, 1, 0] : List SigBit) ∧
    List.count 0 ([1, 0] : List Cell) = 1 :=
  ⟨fun net st n h => coneFromFuel_noTimeout n net st h,
   by decide, by decide, by decide⟩

theorem claim1_cycle_termination_witness :
    coneFromFuel eNet (iterMeasure eNet (coneBegin eNet 5) + 1)
      (coneBegin eNet 5) ≠ FuelRes.timeout :=
  claim1_cycle_termination.1 eNet (coneBegin eNet 5) _ (Nat.lt_succ_self _)

/-- C2 counterexample: on the empty index, `cone(index, 5)` yields a
sequence containing the start bit 5 itself — the claim that the start
bit is never yielded is false. -/
theorem claim2_counterexample :
    ∃ l, coneList eNet 5 = some l ∧ (5 : SigBit) ∈ l :=
  ⟨[5], by decide, by decide⟩

/-- C2 amended: the sequence produced by `cone(index, b)` always begins
with the canonical start bit itself (`*begin()` is the start bit; only
afterwards does `operator++` expand its driver). -/
theorem claim2_amended : ∀ (net : Netlist) (b : SigBit) (bl : List SigBit),
    coneList net b = some bl → ∃ t, bl = net.sigmap b :: t := by
  intro net b bl h
  simp only [coneList] at h
  cases hr : coneRun net b with
  | timeout => rw [hr] at h; simp at h
  | ub => rw [hr] at h; simp at h
  | ok l vis =>
    rw [hr] at h
    simp only [Option.some.injEq] at h
    subst h
    exact coneFromFuel_head _ net _ _ vis hr

theorem claim2_amended_witness :
    ∃ t, ([4, 2, 0, 1, 3] : List SigBit) = c8Net.sigmap 4 :: t :=
  claim2_amended c8Net 4 [4, 2, 0, 1, 3] (by decide)

/-- C3: on every successful run, `cell_cone(index, b)` yields exactly
the classified cells in the transitive combinational fan-in of the
canonical start bit, each exactly once, in first-discovery order of the
corresponding depth-first bit traversal (the first-discovery
deduplication of the drivers of the yielded bits). -/
theorem claim3_cell_cone_exact : ∀ (net : Netlist) (b : SigBit)
    (bl : List SigBit) (vis : List Cell), coneRun net b = .ok bl vis →
    ∃ L, cellConeRun net b = .ok L ∧
      L = firstDedup [] (bl.filterMap net.driverOf) ∧ L.Nodup ∧
      (∀ c, c ∈ L ↔ ConeCell net (net.sigmap b) c) := by
  intro net b bl vis h
  refine ⟨firstDedup [] (bl.filterMap net.driverOf),
    cellConeRun_rel net b bl vis h, rfl, firstDedup_nodup _ _, ?_⟩
  intro c
  rw [firstDedup_mem]
  have h' : coneFromFuel net (iterMeasure net (coneBegin net b) + 1)
      ⟨net.sigmap b, [], []⟩ = .ok bl vis := h
  simp only [List.not_mem_nil, not_false_eq_true, and_true,
    List.mem_filterMap]
  constructor
  · rintro ⟨x, hx, hdx⟩
    exact coneFromFuel_sound _ net (net.sigmap b) bl vis h' c
      (coneFromFuel_driver_visited _ net _ bl vis h' x hx c hdx)
  · intro hcc
    have hv := coneFromFuel_complete _ net (net.sigmap b) bl vis h' c hcc
    rcases coneFromFuel_visited_driver _ net _ bl vis h' c hv with
      hin | ⟨x, hx, hdx⟩
    · simp at hin
    · exact ⟨x, hx, hdx⟩

theorem claim3_witness :
    ∃ L, cellConeRun c8Net 4 = .ok L ∧
      L = firstDedup []
        (([4, 2, 0, 1, 3] : List SigBit).filterMap c8Net.driverOf) ∧
      L.Nodup ∧ (∀ c, c ∈ L ↔ ConeCell c8Net (c8Net.sigmap 4) c) :=
  claim3_cell_cone_exact c8Net 4 [4, 2, 0, 1, 3] [10, 20] (by decide)

/-- C4 counterexample: on the empty index, the undriven bit 5 yields the
one-element sequence `[5]`, not the empty sequence. -/
theorem claim4_counterexample :
    coneList eNet 5 = some [5] ∧ ([5] : List SigBit) ≠ [] :=
  ⟨by decide, by decide⟩

/-- C4 amended: a bit whose canonical form has no driver entry yields
exactly the one-element sequence holding the canonical bit itself. -/
theorem claim4_amended : ∀ (net : Netlist) (b : SigBit),
    net.driverOf (net.sigmap b) = none →
    coneList net b = some [net.sigmap b] := by
  intro net b hd
  have hw := wireStep_begin_undriven net b hd
  simp only [coneList, coneRun, coneFromFuel]
  rw [hw]
  rfl

theorem claim4_amended_witness : coneList eNet 5 = some [eNet.sigmap 5] :=
  claim4_amended eNet 5 (by decide)

/-- C5: after `setup_netlist`, every driver-map key is a canonical bit
of an output port of a classified cell whose id is the mapped value,
every inputs-map key is the id of a classified cell, and the driver-map
entry for a bit is the LAST classified cell in enumeration order whose
canonical output set contains it (last write wins). -/
theorem claim5_index_invariants : ∀ (sm : SigBit → SigBit)
    (ct : CellTypes) (cells : List RawCell),
    (∀ bb c, (setup_netlist sm ct cells).driverOf bb = some c →
      ∃ cell ∈ cells, ct.cell_known cell.ctype = true ∧ cell.id = c ∧
        ∃ p ∈ cell.conns, ct.cell_output cell.ctype p.pname = true ∧
          ∃ r ∈ p.bits, sm r = bb) ∧
    (∀ cid l,
      lookupAL cid (setup_netlist sm ct cells).cell_inputs_map = some l →
      ∃ cell ∈ cells, ct.cell_known cell.ctype = true ∧ cell.id = cid) ∧
    (∀ bb, (setup_netlist sm ct cells).driverOf bb =
      (cells.reverse.find? (drivesOut sm ct bb)).map RawCell.id) := by
  intro sm ct cells
  refine ⟨?_, setup_inputs_key sm ct cells, setup_driver_lookup sm ct cells⟩
  intro bb c h
  rw [setup_driver_lookup sm ct cells bb] at h
  cases hf : cells.reverse.find? (drivesOut sm ct bb) with
  | none => rw [hf] at h; simp at h
  | some cell =>
    rw [hf] at h
    simp only [Option.map_some', Option.some.injEq] at h
    have hmem : cell ∈ cells :=
      List.mem_reverse.mp (List.mem_of_find?_eq_some hf)
    have hpred : drivesOut sm ct bb cell = true := List.find?_some hf
    simp only [drivesOut, Bool.and_eq_true, decide_eq_true_eq] at hpred
    obtain ⟨hk, hb⟩ := hpred
    obtain ⟨p, hp, hpo, r, hr, hrb⟩ :=
      (portSets_out_mem sm ct cell.ctype bb cell.conns).mp hb
    exact ⟨cell, hmem, hk, h, p, hp, hpo, r, hr, hrb⟩

theorem claim5_witness :
    (∃ cell ∈ c8Cells, ctOut.cell_known cell.ctype = true ∧
      cell.id = 20 ∧ ∃ p ∈ cell.conns,
        ctOut.cell_output cell.ctype p.pname = true ∧
        ∃ r ∈ p.bits, id r = (4 : SigBit)) ∧
    (∃ cell ∈ c8Cells, ctOut.cell_known cell.ctype = true ∧
      cell.id = 20) ∧
    ((setup_netlist id ctOut c8Cells).driverOf 4 =
      ((c8Cells.reverse.find? (drivesOut id ctOut 4)).map RawCell.id)) :=
  ⟨(claim5_index_invariants id ctOut c8Cells).1 4 20 (by decide),
   (claim5_index_invariants id ctOut c8Cells).2.1 20 [2, 3] (by decide),
   (claim5_index_invariants id ctOut c8Cells).2.2 4⟩

/-- C6: evaluation at the failing input — a classified cell (id 0) with
an empty recorded input set driving bit 0.  Both traversals abort
abnormally: the code dereferences `inputs.begin()` of an empty set
(undefined behaviour) instead of popping the empty frame as the
specification requires. -/
theorem claim6_empty_inputs_bug :
    constNet.inputsOf 0 = [] ∧
    constNet.driverOf 0 = some 0 ∧
    coneRun constNet 0 = .ub ∧
    cellConeRun constNet 0 = .abnormal := by decide

/-- C7: two independent consumptions of `cone(index, b)` (any two
sufficient fuel budgets — i.e. any two independent walks) give the same
result, likewise for `cell_cone`, and neither call modifies the index
(the model is pure: re-evaluation is literally the same value). -/
theorem claim7_idempotent : ∀ (net : Netlist) (b : SigBit),
    (∀ n, iterMeasure net (coneBegin net b) < n →
      coneFromFuel net n (coneBegin net b) = coneRun net b) ∧
    (∀ F, iterMeasure net (coneBegin net b) < F →
      cellConeRunWith net F b = cellConeRun net b) ∧
    coneList net b = coneList net b ∧
    cellConeList net b = cellConeList net b := by
  intro net b
  refine ⟨?_, ?_, rfl, rfl⟩
  · intro n hn
    exact coneFromFuel_mono (iterMeasure net (coneBegin net b) + 1) n net
      (coneBegin net b) (by omega)
      (coneFromFuel_noTimeout _ net _ (Nat.lt_succ_self _))
  · intro F hF
    simp only [cellConeRun, cellConeRunWith]
    cases hd : net.driverOf (coneBegin net b).sig with
    | some c =>
      simp only
      exact cellConeFuel_mono _ F net _ (by omega)
        (cellConeFuel_noTimeout _ net _ (Nat.lt_succ_self _))
    | none =>
      simp only
      have hB : cellNextFuel net (iterMeasure net (coneBegin net b) + 1)
          (coneBegin net b) ≠ .timeout :=
        cellNextFuel_noTimeout _ net _ (Nat.lt_succ_self _)
      rw [cellNextFuel_mono _ F net _ (by omega) hB]
      cases hcn : cellNextFuel net
          (iterMeasure net (coneBegin net b) + 1) (coneBegin net b) with
      | timeout => exact absurd hcn hB
      | ub => rfl
      | finished => rfl
      | stopped st' =>
        have hm := cellNextFuel_stopped_measure _ net _ st' hcn
        exact cellConeFuel_mono _ F net st' (by omega)
          (cellConeFuel_noTimeout _ net st' (by omega))

theorem claim7_witness :
    coneFromFuel eNet (iterMeasure eNet (coneBegin eNet 5) + 2)
        (coneBegin eNet 5) = coneRun eNet 5 ∧
    cellConeRunWith eNet (iterMeasure eNet (coneBegin eNet 5) + 2) 5 =
      cellConeRun eNet 5 :=
  ⟨(claim7_idempotent eNet 5).1 _ (by decide),
   (claim7_idempotent eNet 5).2.1 _ (by decide)⟩

/-- C8 counterexample: in the two-AND module, `cone(index, out)` yields
`[out, w1, in0, in1, in2]`, which contains `out` (= 4); the claimed
exact bit set `{w1, in2, in0, in1}` does not contain `out`, so the
claim's bit set is wrong. -/
theorem claim8_counterexample :
    ∃ l, coneList c8Net 4 = some l ∧ (4 : SigBit) ∈ l ∧
      (4 : SigBit) ∉ ([2, 3, 0, 1] : List SigBit) :=
  ⟨[4, 2, 0, 1, 3], by decide, by decide, by decide⟩

/-- C8 amended: `cone(index, out)` yields exactly
`[out, w1, in0, in1, in2]` (so `w1` is indeed discovered before
`in0`/`in1`, but `out` itself is yielded first), and
`cell_cone(index, out)` yields `[c2, c1]` in that order as claimed. -/
theorem claim8_amended :
    coneRun c8Net 4 = .ok [4, 2, 0, 1, 3] [10, 20] ∧
    coneList c8Net 4 = some [4, 2, 0, 1, 3] ∧
    cellConeList c8Net 4 = some [20, 10] := by decide

/-- C9: both entry points canonicalize the start bit before traversal,
so for an idempotent canonicalizer (a canonicalizer maps every bit to a
fixed representative) starting from `b` and from `canonicalize(b)`
yields identical sequences. -/
theorem claim9_canonicalize_entry : ∀ (net : Netlist) (b : SigBit),
    net.sigmap (net.sigmap b) = net.sigmap b →
    coneList net b = coneList net (net.sigmap b) ∧
    cellConeList net b = cellConeList net (net.sigmap b) := by
  intro net b h
  have hcb : coneBegin net (net.sigmap b) = coneBegin net b := by
    simp [coneBegin, h]
  constructor
  · simp only [coneList, coneRun, hcb]
  · simp only [cellConeList, cellConeRun, cellConeRunWith, hcb]

theorem claim9_witness :
    coneList eNet 5 = coneList eNet (eNet.sigmap 5) ∧
    cellConeList eNet 5 = cellConeList eNet (eNet.sigmap 5) :=
  claim9_canonicalize_entry eNet 5 (by decide)

/-- C10: when the canonical start bit has no driver entry, the cell
iterator's constructor advances past it and immediately reaches the
sentinel: `cell_cone(index, b)` yields the empty sequence. -/
theorem claim10_undriven_cell_cone : ∀ (net : Netlist) (b : SigBit),
    net.driverOf (net.sigmap b) = none → cellConeList net b = some [] := by
  intro net b hd
  have hw := wireStep_begin_undriven net b hd
  have hd' : net.driverOf (coneBegin net b).sig = none := hd
  simp only [cellConeList, cellConeRun, cellConeRunWith]
  rw [hd']
  simp only [cellNextFuel]
  rw [hw]

theorem claim10_witness : cellConeList eNet 7 = some [] :=
  claim10_undriven_cell_cone eNet 7 (by decide)
